import Mathlib

/-!
Shallow embedding of the CoAP Block option value codec
(`src/block_handler/block_value.rs`).

Modelling conventions:
* `usize` values are `Nat`, with the bound `< 2 ^ 64` added as a hypothesis
  where the platform width matters; `usize::BITS` is 64.
* `u32` / `u8` narrowing (`u32::try_from`, `u8::try_from`) is embedded as an
  explicit range check returning the same error the source maps it to.
* Arithmetic that can wrap in `u32` carries an explicit `% 2 ^ 32`.
* The external scalar codec `OptionValueU32` lives outside this crate's
  block-handler source; it is modelled from its documented contract
  (minimal big-endian serialization of a `u32`).
-/

/-- `usize::BITS` on the modelled 64-bit platform. -/
def USIZE_BITS : Nat := 64

/-- `MAX_BLOCK_NUMBER`: `2 ^ 20 - 1`. -/
def MAX_BLOCK_NUMBER : Nat := 1048575

/-- The construction-time error type `InvalidBlockValue` of the crate.
`TypeBoundsError` wraps Rust's `TryFromIntError`, which carries no data. -/
inductive InvalidBlockValue where
  | SizeExponentEncodingError (size : Nat)
  | TypeBoundsError
  | MaximumNumberExceeded (num : Nat)
deriving DecidableEq, Repr

/-- The decode-time error type `IncompatibleOptionValueFormat` of the crate
(carried through unchanged from the scalar codec). -/
inductive IncompatibleOptionValueFormat where
  | formatError
deriving DecidableEq, Repr

/-- `struct BlockValue { num: u32, more: bool, size_exponent: u8 }`. -/
structure BlockValue where
  num : Nat
  more : Bool
  size_exponent : Nat
deriving DecidableEq, Repr

/-- `BlockValue::largest_power_of_2_not_in_excess`: for nonzero `target`,
scan exponents `0..usize::BITS` for the first `i` with `1 << i > target`;
return `i - 1` if found, else the bit width itself.
(`usize::try_from(usize::BITS).unwrap()` always succeeds and gives 64.) -/
def BlockValue.largest_power_of_2_not_in_excess (target : Nat) : Option Nat :=
  if target = 0 then
    none
  else
    match (List.range USIZE_BITS).find? (fun i => decide (1 <<< i > target)) with
    | some size => some (size - 1)
    | none => some USIZE_BITS

/-- `BlockValue::new(num, more, size)`. -/
def BlockValue.new (num : Nat) (more : Bool) (size : Nat) :
    Except InvalidBlockValue BlockValue :=
  match BlockValue.largest_power_of_2_not_in_excess size with
  | none => .error (.SizeExponentEncodingError size)
  | some true_size_exponent =>
    if 2 ^ 8 ≤ true_size_exponent - 4 then
      .error .TypeBoundsError
    else
      let size_exponent := true_size_exponent - 4
      if size_exponent > 0x7 then
        .error (.SizeExponentEncodingError size)
      else if 2 ^ 32 ≤ num then
        .error .TypeBoundsError
      else if num > MAX_BLOCK_NUMBER then
        .error (.MaximumNumberExceeded num)
      else
        .ok ⟨num, more, size_exponent⟩

/-- `BlockValue::size`: `1 << (self.size_exponent + 4)`. Faithful to the
source for `size_exponent ≤ 7`, where neither the `u8` addition nor the
`usize` shift can overflow. -/
def BlockValue.size (v : BlockValue) : Nat :=
  1 <<< (v.size_exponent + 4)

/-- The packed 32-bit scalar built by `From<BlockValue> for Vec<u8>`:
`u32::from(num) << 4 | u32::from(more) << 3 | u32::from(size_exponent & 0x7)`. -/
def BlockValue.scalar (v : BlockValue) : Nat :=
  (v.num <<< 4) % 2 ^ 32 ||| (if v.more then 1 else 0) <<< 3 |||
    (v.size_exponent &&& 0x7)

/-- Big-endian digit expansion, structurally recursive on a fuel bound so it
reduces in the kernel; `fuel ≥ n` makes the fuel-exhausted branch unreachable. -/
def OptionValueU32.to_bytes_fuel : Nat → Nat → List Nat
  | _, 0 => []
  | 0, _ => []
  | fuel + 1, n => OptionValueU32.to_bytes_fuel fuel (n / 256) ++ [n % 256]

/-- Modelled from the spec: the external scalar codec's serialization
(`Vec::from(OptionValueU32(scalar))`, not part of the block-handler source):
minimal big-endian byte sequence, no leading zero bytes, scalar 0 gives the
empty sequence. -/
def OptionValueU32.to_bytes (scalar : Nat) : List Nat :=
  OptionValueU32.to_bytes_fuel scalar scalar

/-- Modelled from the spec: the external scalar codec's deserialization
(`OptionValueU32::try_from(Vec<u8>)`, not part of the block-handler source):
big-endian read of at most 4 bytes, failing on longer input. -/
def OptionValueU32.from_bytes (bytes : List Nat) :
    Except IncompatibleOptionValueFormat Nat :=
  if 4 < bytes.length then
    .error .formatError
  else
    .ok (bytes.foldl (fun acc b => acc * 256 + b) 0)

/-- `From<BlockValue> for Vec<u8>`: pack the scalar, then serialize it via
the external codec. -/
def BlockValue.into_bytes (v : BlockValue) : List Nat :=
  OptionValueU32.to_bytes v.scalar

/-- `TryFrom<Vec<u8>> for BlockValue`: decode the scalar via the external
codec, then unpack `num = scalar >> 4`, `more = scalar >> 3 & 1 == 1`,
`size_exponent = scalar & 0x7`, with no further validation. -/
def BlockValue.try_from (bytes : List Nat) :
    Except IncompatibleOptionValueFormat BlockValue :=
  match OptionValueU32.from_bytes bytes with
  | .error e => .error e
  | .ok scalar =>
    .ok { num := scalar >>> 4
          more := scalar >>> 3 &&& 0x1 == 0x1
          size_exponent := scalar &&& 0x7 }

example : BlockValue.largest_power_of_2_not_in_excess 0 = none := by decide
example : BlockValue.largest_power_of_2_not_in_excess 256 = some 8 := by decide
example : BlockValue.largest_power_of_2_not_in_excess 257 = some 8 := by decide
example : BlockValue.largest_power_of_2_not_in_excess (2 ^ 64 - 1) = some 64 := by
  rfl
example : BlockValue.new 0 false 1158 = .ok ⟨0, false, 6⟩ := rfl
example : BlockValue.new 0 false 256 = .ok ⟨0, false, 4⟩ := rfl
example : BlockValue.new 0 false 0 =
    .error (.SizeExponentEncodingError 0) := rfl
example : BlockValue.new 1048576 false 16 =
    .error (.MaximumNumberExceeded 1048576) := rfl
example : BlockValue.into_bytes ⟨4096, false, 6⟩ = [0x01, 0x00, 0x06] := rfl
example : BlockValue.into_bytes ⟨4095, false, 6⟩ = [0xff, 0xf6] := rfl
example : BlockValue.try_from [0x01, 0x00, 0x06] = .ok ⟨4096, false, 6⟩ := rfl
example : BlockValue.try_from [1, 2, 3, 4, 5] = .error .formatError := rfl

/-! ### The power-of-two search -/

theorem find?_range_eq_some {p : Nat → Bool} {n i : Nat}
    (hi : i < n) (hp : p i = true) (hmin : ∀ j, j < i → p j = false) :
    (List.range n).find? p = some i := by
  induction n with
  | zero => omega
  | succ n ih =>
    rw [List.range_succ, List.find?_append]
    rcases Nat.lt_or_ge i n with h | h
    · rw [ih h]
      rfl
    · have hin : i = n := by omega
      subst hin
      have hnone : (List.range i).find? p = none := by
        rw [List.find?_eq_none]
        intro j hj
        rw [List.mem_range] at hj
        simp [hmin j hj]
      rw [hnone]
      simp [List.find?, hp]

/-- For `0 < target < 2 ^ 63` the scan finds `log2 target + 1` and the
function returns the true base-2 logarithm. -/
theorem largest_power_eq_log2 (target : Nat) (h0 : 0 < target)
    (hlt : target < 2 ^ 63) :
    BlockValue.largest_power_of_2_not_in_excess target =
      some (Nat.log2 target) := by
  have hne : target ≠ 0 := by omega
  have hlog : Nat.log2 target < 63 := (Nat.log2_lt hne).mpr hlt
  unfold BlockValue.largest_power_of_2_not_in_excess
  rw [if_neg hne]
  have hfind : (List.range USIZE_BITS).find?
      (fun i => decide (1 <<< i > target)) = some (Nat.log2 target + 1) := by
    apply find?_range_eq_some
    · unfold USIZE_BITS
      omega
    · simp only [Nat.shiftLeft_eq, one_mul, gt_iff_lt, decide_eq_true_eq]
      exact Nat.lt_log2_self
    · intro j hj
      simp only [Nat.shiftLeft_eq, one_mul, gt_iff_lt, decide_eq_false_iff_not,
        not_lt]
      calc 2 ^ j ≤ 2 ^ Nat.log2 target := Nat.pow_le_pow_right (by omega) (by omega)
        _ ≤ target := Nat.log2_self_le hne
  rw [hfind]
  rfl

/-- For `target ≥ 2 ^ 63` no scanned power exceeds `target`, so the
fallback returns the bit width. -/
theorem largest_power_fallback (target : Nat) (h : 2 ^ 63 ≤ target) :
    BlockValue.largest_power_of_2_not_in_excess target = some USIZE_BITS := by
  have hne : target ≠ 0 := by omega
  unfold BlockValue.largest_power_of_2_not_in_excess
  rw [if_neg hne]
  have hfind : (List.range USIZE_BITS).find?
      (fun i => decide (1 <<< i > target)) = none := by
    rw [List.find?_eq_none]
    intro i hi
    rw [List.mem_range] at hi
    simp only [Nat.shiftLeft_eq, one_mul, gt_iff_lt, decide_eq_true_eq, not_lt]
    calc 2 ^ i ≤ 2 ^ 63 := Nat.pow_le_pow_right (by omega) (by unfold USIZE_BITS at hi; omega)
      _ ≤ target := h
  rw [hfind]

/-! ### Characterizing `BlockValue::new` -/

theorem new_size_zero (num : Nat) (more : Bool) :
    BlockValue.new num more 0 = .error (.SizeExponentEncodingError 0) := rfl

/-- For an in-range requested size the exponent stage succeeds with
`log2 size - 4` and only the `num` checks remain. -/
theorem new_eq_of_size_small (num : Nat) (more : Bool) (size : Nat)
    (h1 : 0 < size) (h2 : size ≤ 4095) :
    BlockValue.new num more size =
      if 2 ^ 32 ≤ num then .error .TypeBoundsError
      else if MAX_BLOCK_NUMBER < num then .error (.MaximumNumberExceeded num)
      else .ok ⟨num, more, Nat.log2 size - 4⟩ := by
  have hchar := largest_power_eq_log2 size h1 (by omega)
  have hlog : Nat.log2 size < 12 := (Nat.log2_lt (by omega)).mpr (by omega)
  have hA : ¬ (2 ^ 8 ≤ Nat.log2 size - 4) := by omega
  have hB : ¬ (Nat.log2 size - 4 > 0x7) := by omega
  simp only [BlockValue.new, hchar, hA, hB, if_false, gt_iff_lt, not_lt]

/-- A requested size of 4096 or more is rejected with the size-exponent
error, via the exponent check. -/
theorem new_size_big (num : Nat) (more : Bool) (size : Nat)
    (h1 : 4096 ≤ size) (h2 : size < 2 ^ 64) :
    BlockValue.new num more size = .error (.SizeExponentEncodingError size) := by
  rcases Nat.lt_or_ge size (2 ^ 63) with h | h
  · have hchar := largest_power_eq_log2 size (by omega) h
    have hlog1 : 12 ≤ Nat.log2 size := (Nat.le_log2 (by omega)).mpr (by omega)
    have hlog2 : Nat.log2 size < 64 := (Nat.log2_lt (by omega)).mpr (by omega)
    have hA : ¬ (2 ^ 8 ≤ Nat.log2 size - 4) := by omega
    have hB : Nat.log2 size - 4 > 0x7 := by omega
    simp only [BlockValue.new, hchar, hA, hB, if_false, if_true, ite_true]
  · have hchar := largest_power_fallback size h
    simp only [BlockValue.new, hchar, USIZE_BITS]
    norm_num

/-- Inversion: a successful construction pins down the inputs and the
result. -/
theorem new_ok_inv {num : Nat} {more : Bool} {size : Nat} {v : BlockValue}
    (hsize : size < 2 ^ 64) (h : BlockValue.new num more size = .ok v) :
    0 < size ∧ size ≤ 4095 ∧ num ≤ MAX_BLOCK_NUMBER ∧
      v = ⟨num, more, Nat.log2 size - 4⟩ := by
  by_cases h0 : size = 0
  · subst h0
    rw [new_size_zero] at h
    cases h
  rcases Nat.lt_or_ge size 4096 with hs | hs
  · rw [new_eq_of_size_small num more size (by omega) (by omega)] at h
    split_ifs at h with hA hB
    cases h
    exact ⟨by omega, by omega, by omega, rfl⟩
  · rw [new_size_big num more size (by omega) hsize] at h
    cases h

/-! ### The scalar codec -/

theorem to_bytes_fuel_foldl_zero : ∀ (fuel n : Nat), n ≤ fuel →
    (OptionValueU32.to_bytes_fuel fuel n).foldl
      (fun acc b => acc * 256 + b) 0 = n := by
  intro fuel
  induction fuel with
  | zero =>
    intro n h
    have h0 : n = 0 := by omega
    subst h0
    rfl
  | succ fuel ih =>
    intro n h
    cases n with
    | zero => rfl
    | succ m =>
      have hd : (m + 1) / 256 ≤ fuel := by
        have h2 := Nat.div_lt_self (Nat.succ_pos m) (show 1 < 256 by omega)
        omega
      show (OptionValueU32.to_bytes_fuel fuel ((m + 1) / 256) ++
          [(m + 1) % 256]).foldl (fun acc b => acc * 256 + b) 0 = m + 1
      rw [List.foldl_append, ih ((m + 1) / 256) hd]
      simp only [List.foldl_cons, List.foldl_nil]
      omega

theorem to_bytes_fuel_length_le : ∀ (k fuel n : Nat), n ≤ fuel →
    n < 256 ^ k → (OptionValueU32.to_bytes_fuel fuel n).length ≤ k := by
  intro k
  induction k with
  | zero =>
    intro fuel n h hk
    have h0 : n = 0 := by simpa using hk
    subst h0
    cases fuel <;> simp [OptionValueU32.to_bytes_fuel]
  | succ k ih =>
    intro fuel n h hk
    cases fuel with
    | zero =>
      have h0 : n = 0 := by omega
      subst h0
      simp [OptionValueU32.to_bytes_fuel]
    | succ fuel =>
      cases n with
      | zero => simp [OptionValueU32.to_bytes_fuel]
      | succ m =>
        have hd : (m + 1) / 256 ≤ fuel := by
          have h2 := Nat.div_lt_self (Nat.succ_pos m) (show 1 < 256 by omega)
          omega
        have hdk : (m + 1) / 256 < 256 ^ k := by
          apply Nat.div_lt_of_lt_mul
          rw [pow_succ] at hk
          omega
        show (OptionValueU32.to_bytes_fuel fuel ((m + 1) / 256) ++
            [(m + 1) % 256]).length ≤ k + 1
        rw [List.length_append]
        have := ih fuel ((m + 1) / 256) hd hdk
        simp only [List.length_cons, List.length_nil]
        omega

/-- The modelled codec round-trips every `u32` scalar. -/
theorem scalar_codec_roundtrip (scalar : Nat) (h : scalar < 2 ^ 32) :
    OptionValueU32.from_bytes (OptionValueU32.to_bytes scalar) = .ok scalar := by
  have h4 : scalar < 256 ^ 4 := by
    calc scalar < 2 ^ 32 := h
      _ = 256 ^ 4 := by norm_num
  have hlen : (OptionValueU32.to_bytes scalar).length ≤ 4 :=
    to_bytes_fuel_length_le 4 scalar scalar le_rfl h4
  unfold OptionValueU32.from_bytes
  rw [if_neg (by omega)]
  rw [show OptionValueU32.to_bytes scalar =
    OptionValueU32.to_bytes_fuel scalar scalar from rfl]
  rw [to_bytes_fuel_foldl_zero scalar scalar le_rfl]

/-! ### Packing and unpacking arithmetic -/

/-- For a value satisfying the invariants, the packed scalar is plain
positional arithmetic. -/
theorem scalar_eq_arith (v : BlockValue) (hnum : v.num ≤ MAX_BLOCK_NUMBER)
    (hse : v.size_exponent ≤ 7) :
    v.scalar = 16 * v.num + 8 * (if v.more then 1 else 0) + v.size_exponent := by
  have hmb : (if v.more then 1 else 0) ≤ 1 := by split <;> omega
  have h7 : v.size_exponent &&& 0x7 = v.size_exponent := by
    have h := Nat.and_pow_two_sub_one_eq_mod v.size_exponent 3
    norm_num at h
    rw [h]
    exact Nat.mod_eq_of_lt (by omega)
  have hmod : (v.num <<< 4) % 2 ^ 32 = 2 ^ 4 * v.num := by
    rw [Nat.shiftLeft_eq, mul_comm]
    refine Nat.mod_eq_of_lt ?_
    unfold MAX_BLOCK_NUMBER at hnum
    omega
  have hinner : (if v.more then 1 else 0) <<< 3 ||| v.size_exponent =
      2 ^ 3 * (if v.more then 1 else 0) + v.size_exponent := by
    rw [Nat.shiftLeft_eq, mul_comm]
    exact (Nat.mul_add_lt_is_or (show v.size_exponent < 2 ^ 3 by omega) _).symm
  have houter : 2 ^ 4 * v.num |||
      (2 ^ 3 * (if v.more then 1 else 0) + v.size_exponent) =
      2 ^ 4 * v.num + (2 ^ 3 * (if v.more then 1 else 0) + v.size_exponent) := by
    refine (Nat.mul_add_lt_is_or ?_ _).symm
    omega
  unfold BlockValue.scalar
  rw [Nat.lor_assoc, h7, hmod, hinner, houter]
  ring

theorem unpack_num (num mb se : Nat) (hmb : mb ≤ 1) (hse : se ≤ 7) :
    (16 * num + 8 * mb + se) >>> 4 = num := by
  rw [Nat.shiftRight_eq_div_pow]
  omega

theorem unpack_more_bit (num mb se : Nat) (hmb : mb ≤ 1) (hse : se ≤ 7) :
    (16 * num + 8 * mb + se) >>> 3 &&& 0x1 = mb := by
  rw [Nat.shiftRight_eq_div_pow]
  norm_num
  omega

theorem unpack_size_exponent (num mb se : Nat) (_hmb : mb ≤ 1) (hse : se ≤ 7) :
    (16 * num + 8 * mb + se) &&& 0x7 = se := by
  have h := Nat.and_pow_two_sub_one_eq_mod (16 * num + 8 * mb + se) 3
  norm_num at h ⊢
  rw [h]
  omega

theorem try_from_of_bytes_ok {bytes : List Nat} {S : Nat}
    (h : OptionValueU32.from_bytes bytes = .ok S) :
    BlockValue.try_from bytes =
      .ok ⟨S >>> 4, S >>> 3 &&& 0x1 == 0x1, S &&& 0x7⟩ := by
  unfold BlockValue.try_from
  rw [h]

theorem and_seven_le (S : Nat) : S &&& 0x7 ≤ 7 := by
  have h := Nat.and_pow_two_sub_one_eq_mod S 3
  norm_num at h
  rw [h]
  omega

theorem MAX_BLOCK_NUMBER_eq : MAX_BLOCK_NUMBER = 1048575 := rfl

/-- Shared bounds on `size()` for any exponent within the 3-bit range. -/
theorem size_of_exponent_le (v : BlockValue) (hse : v.size_exponent ≤ 7) :
    BlockValue.size v = 16 <<< v.size_exponent ∧ 16 ≤ BlockValue.size v ∧
    BlockValue.size v ≤ 2048 ∧ ∃ k, BlockValue.size v = 2 ^ k := by
  have hpow : BlockValue.size v = 2 ^ (v.size_exponent + 4) := by
    unfold BlockValue.size
    rw [Nat.shiftLeft_eq, one_mul]
  refine ⟨?_, ?_, ?_, v.size_exponent + 4, hpow⟩
  · rw [hpow, Nat.shiftLeft_eq, pow_add]
    ring
  · rw [hpow]
    calc (16 : Nat) = 2 ^ 4 := by norm_num
      _ ≤ 2 ^ (v.size_exponent + 4) := Nat.pow_le_pow_right (by omega) (by omega)
  · rw [hpow]
    calc (2 : Nat) ^ (v.size_exponent + 4) ≤ 2 ^ 11 :=
        Nat.pow_le_pow_right (by omega) (by omega)
      _ = 2048 := by norm_num

/-! ### Claims -/

/-- C1: for every `BlockValue` satisfying the invariants
(`num ≤ 1048575`, `size_exponent ≤ 7`), decoding the bytes produced by
serialization succeeds and yields a value equal to the original. -/
theorem C1_block_value_roundtrip (v : BlockValue)
    (hnum : v.num ≤ 1048575) (hse : v.size_exponent ≤ 7) :
    BlockValue.try_from (BlockValue.into_bytes v) = .ok v := by
  obtain ⟨num, more, se⟩ := v
  have hmb : (if more then 1 else 0) ≤ 1 := by split <;> omega
  have hs : BlockValue.scalar ⟨num, more, se⟩ =
      16 * num + 8 * (if more then 1 else 0) + se :=
    scalar_eq_arith ⟨num, more, se⟩ hnum hse
  have hbound : BlockValue.scalar ⟨num, more, se⟩ < 2 ^ 32 := by
    rw [hs]
    simp only at hnum hse
    omega
  unfold BlockValue.into_bytes
  rw [try_from_of_bytes_ok (scalar_codec_roundtrip _ hbound)]
  rw [Except.ok.injEq, hs, BlockValue.mk.injEq]
  simp only at hnum hse
  refine ⟨unpack_num num _ se hmb hse, ?_, unpack_size_exponent num _ se hmb hse⟩
  rw [unpack_more_bit num _ se hmb hse]
  cases more <;> rfl

/-- C1 witness at a concrete value. -/
theorem C1_witness :
    BlockValue.try_from (BlockValue.into_bytes ⟨4096, true, 6⟩) =
      .ok ⟨4096, true, 6⟩ :=
  C1_block_value_roundtrip ⟨4096, true, 6⟩ (by decide) (by decide)

/-- C2: `new` raises `SizeExponentEncodingError` exactly when `size = 0` or
`size ≥ 4096` (for any `num`, `more`); sizes 1..4095 never raise it; and an
over-large size is rejected through the derived exponent exceeding 7. -/
theorem C2_size_exponent_error_iff (num : Nat) (more : Bool) (size : Nat)
    (hsize : size < 2 ^ 64) :
    (BlockValue.new num more size =
        .error (.SizeExponentEncodingError size) ↔ size = 0 ∨ 4096 ≤ size) ∧
    (4096 ≤ size →
      ∃ tse, BlockValue.largest_power_of_2_not_in_excess size = some tse ∧
        7 < tse - 4) := by
  constructor
  · constructor
    · intro h
      by_contra hc
      push_neg at hc
      obtain ⟨h0, h4⟩ := hc
      rw [new_eq_of_size_small num more size (by omega) (by omega)] at h
      split_ifs at h <;> simp_all
    · intro h
      rcases h with h0 | h4
      · subst h0
        exact new_size_zero num more
      · exact new_size_big num more size h4 hsize
  · intro h4
    rcases Nat.lt_or_ge size (2 ^ 63) with h | h
    · refine ⟨Nat.log2 size, largest_power_eq_log2 size (by omega) h, ?_⟩
      have h12 : 12 ≤ Nat.log2 size := (Nat.le_log2 (by omega)).mpr (by omega)
      omega
    · exact ⟨USIZE_BITS, largest_power_fallback size h, by norm_num [USIZE_BITS]⟩

/-- C2 witness at a concrete input. -/
theorem C2_witness :
    BlockValue.new 0 false 4096 = .error (.SizeExponentEncodingError 4096) :=
  ((C2_size_exponent_error_iff 0 false 4096 (by decide)).1).mpr
    (Or.inr (by decide))

/-- C3: with an accepted size (1..4095), construction succeeds iff
`num ≤ 1048575`; a larger `num` that fits `u32` gives
`MaximumNumberExceeded`, a `num` outside `u32` gives `TypeBoundsError`;
boundary instances at 1048575 and 1048576 with size 16. -/
theorem C3_num_validation (num : Nat) (more : Bool) (size : Nat)
    (h1 : 1 ≤ size) (h2 : size ≤ 4095) :
    (num < 2 ^ 32 →
      (((∃ v, BlockValue.new num more size = .ok v) ↔ num ≤ 1048575) ∧
        (1048575 < num →
          BlockValue.new num more size =
            .error (.MaximumNumberExceeded num)))) ∧
    (2 ^ 32 ≤ num →
      BlockValue.new num more size = .error .TypeBoundsError) ∧
    BlockValue.new 1048575 more 16 = .ok ⟨1048575, more, 0⟩ ∧
    BlockValue.new 1048576 more 16 =
      .error (.MaximumNumberExceeded 1048576) := by
  have heq := new_eq_of_size_small num more size h1 h2
  rw [MAX_BLOCK_NUMBER_eq] at heq
  refine ⟨?_, ?_, rfl, rfl⟩
  · intro h32
    rw [heq, if_neg (by omega)]
    constructor
    · constructor
      · rintro ⟨v, hv⟩
        by_contra hc
        rw [if_pos (by omega)] at hv
        cases hv
      · intro hle
        rw [if_neg (by omega)]
        exact ⟨_, rfl⟩
    · intro hgt
      rw [if_pos hgt]
  · intro h32
    rw [heq, if_pos (by omega)]

/-- C3 witness at the boundary. -/
theorem C3_witness :
    BlockValue.new 1048575 true 16 = .ok ⟨1048575, true, 0⟩ :=
  (C3_num_validation 1048575 true 16 (by decide) (by decide)).2.2.1

/-- C4: the search returns `none` for 0; for any nonzero target having an
exceeding power of two below the bit width, it returns one less than the
smallest exceeding exponent; 256 maps to 8 and 257 maps to 8. -/
theorem C4_largest_power_correct :
    BlockValue.largest_power_of_2_not_in_excess 0 = none ∧
    (∀ target i, 0 < target → i < 64 → target < 2 ^ i →
      (∀ j, j < i → ¬ target < 2 ^ j) →
      BlockValue.largest_power_of_2_not_in_excess target = some (i - 1)) ∧
    BlockValue.largest_power_of_2_not_in_excess 256 = some 8 ∧
    BlockValue.largest_power_of_2_not_in_excess 257 = some 8 := by
  refine ⟨rfl, ?_, by decide, by decide⟩
  intro target i h0 hi hex hmin
  unfold BlockValue.largest_power_of_2_not_in_excess
  rw [if_neg (by omega)]
  have hfind : (List.range USIZE_BITS).find?
      (fun j => decide (1 <<< j > target)) = some i := by
    apply find?_range_eq_some
    · unfold USIZE_BITS
      omega
    · simp only [Nat.shiftLeft_eq, one_mul, gt_iff_lt, decide_eq_true_eq]
      exact hex
    · intro j hj
      simp only [Nat.shiftLeft_eq, one_mul, gt_iff_lt, decide_eq_false_iff_not,
        not_lt]
      have := hmin j hj
      omega
  rw [hfind]

/-- C4 witness: smallest exceeding exponent for 1000 is 10, so the search
returns 9. -/
theorem C4_witness : BlockValue.largest_power_of_2_not_in_excess 1000 = some 9 :=
  C4_largest_power_correct.2.1 1000 10 (by decide) (by decide) (by decide)
    (by decide)

/-- C5 as stated is false: the bit-width fallback also fires at
`target = 2 ^ 63`, which is not the maximum representable magnitude. -/
theorem C5_counterexample :
    BlockValue.largest_power_of_2_not_in_excess (2 ^ 63) = some 64 ∧
    (2 ^ 63 : Nat) ≠ 2 ^ 64 - 1 := by
  constructor
  · rfl
  · decide

/-- C5 amended: the fallback occurs exactly for targets with the top
platform bit set (`2 ^ 63 ≤ target`), not only at the maximum magnitude;
for every nonzero target below `2 ^ 63` the largest not-exceeding exponent
is returned. -/
theorem C5_fallback_characterization (target : Nat) (h0 : 0 < target)
    (h64 : target < 2 ^ 64) :
    (BlockValue.largest_power_of_2_not_in_excess target = some 64 ↔
      2 ^ 63 ≤ target) ∧
    (target < 2 ^ 63 →
      ∃ e, BlockValue.largest_power_of_2_not_in_excess target = some e ∧
        2 ^ e ≤ target ∧ target < 2 ^ (e + 1)) := by
  constructor
  · constructor
    · intro h
      by_contra hc
      push_neg at hc
      rw [largest_power_eq_log2 target h0 hc] at h
      have hlog : Nat.log2 target < 63 := (Nat.log2_lt (by omega)).mpr hc
      rw [Option.some.injEq] at h
      omega
    · intro h
      rw [largest_power_fallback target h]
      rfl
  · intro h
    exact ⟨Nat.log2 target, largest_power_eq_log2 target h0 h,
      Nat.log2_self_le (by omega), Nat.lt_log2_self⟩

/-- C5 witness for the amended statement. -/
theorem C5_witness :
    ∃ e, BlockValue.largest_power_of_2_not_in_excess 300 = some e ∧
      2 ^ e ≤ 300 ∧ 300 < 2 ^ (e + 1) :=
  (C5_fallback_characterization 300 (by decide) (by decide)).2 (by decide)

/-- C6: for any value with `size_exponent ≤ 7`, `size()` is `16 << e`, a
power of two in `[16, 2048]`; and every successful construction from a
requested `size ≥ 16` has `size()` equal to the largest power of two not
exceeding the request. -/
theorem C6_size_accessor :
    (∀ v : BlockValue, v.size_exponent ≤ 7 →
      BlockValue.size v = 16 <<< v.size_exponent ∧
      16 ≤ BlockValue.size v ∧ BlockValue.size v ≤ 2048 ∧
      ∃ k, BlockValue.size v = 2 ^ k) ∧
    (∀ num more size v, 16 ≤ size → size < 2 ^ 64 →
      BlockValue.new num more size = .ok v →
      ∃ k, BlockValue.size v = 2 ^ k ∧ 2 ^ k ≤ size ∧ size < 2 ^ (k + 1)) := by
  refine ⟨size_of_exponent_le, ?_⟩
  intro num more size v h16 h64 hok
  obtain ⟨hpos, hle, hnum, hv⟩ := new_ok_inv h64 hok
  have hlog4 : 4 ≤ Nat.log2 size := (Nat.le_log2 (by omega)).mpr (by norm_num; omega)
  refine ⟨Nat.log2 size, ?_, Nat.log2_self_le (by omega), Nat.lt_log2_self⟩
  subst hv
  unfold BlockValue.size
  rw [Nat.shiftLeft_eq, one_mul]
  congr 1
  simp only
  omega

/-- C6 witness: `new(0, false, 1158)` gives block size 1024, the largest
power of two below 1158. -/
theorem C6_witness :
    ∃ k, BlockValue.size ⟨0, false, 6⟩ = 2 ^ k ∧ 2 ^ k ≤ 1158 ∧
      1158 < 2 ^ (k + 1) :=
  C6_size_accessor.2 0 false 1158 ⟨0, false, 6⟩ (by decide) (by decide) rfl

/-- C7: decoding performs no semantic re-validation: every scalar the codec
accepts is unpacked bitwise as-is; some decodable byte sequence yields a
`num` above 1048575; and decode failures are exactly the codec's failures. -/
theorem C7_decode_no_revalidation :
    (∀ bytes S, OptionValueU32.from_bytes bytes = .ok S →
      BlockValue.try_from bytes =
        .ok ⟨S >>> 4, S >>> 3 &&& 0x1 == 0x1, S &&& 0x7⟩) ∧
    (∃ bytes v, BlockValue.try_from bytes = .ok v ∧ 1048575 < v.num) ∧
    (∀ bytes e, BlockValue.try_from bytes = .error e →
      OptionValueU32.from_bytes bytes = .error e) := by
  refine ⟨fun bytes S h => try_from_of_bytes_ok h,
    ⟨[0xff, 0xff, 0xff, 0xff], ⟨0xfffffff, true, 7⟩, rfl, by decide⟩, ?_⟩
  intro bytes e h
  unfold BlockValue.try_from at h
  cases hfb : OptionValueU32.from_bytes bytes with
  | error e2 =>
    rw [hfb] at h
  | ok S =>
    rw [hfb] at h
    cases h

/-- C7 witness: a concrete accepted scalar is unpacked bitwise. -/
theorem C7_witness : BlockValue.try_from [0, 0, 0, 16] = .ok ⟨1, false, 0⟩ :=
  C7_decode_no_revalidation.1 [0, 0, 0, 16] 16 rfl

/-- C8: the two concrete wire encodings fixed by the spec (and by the
crate's own tests): `new(4096, false, 1024)` serializes to
`[0x01, 0x00, 0x06]` and `new(4095, false, 1024)` to `[0xff, 0xf6]`. -/
theorem C8_concrete_encodings :
    (∃ v, BlockValue.new 4096 false 1024 = .ok v ∧
      BlockValue.into_bytes v = [0x01, 0x00, 0x06]) ∧
    (∃ v, BlockValue.new 4095 false 1024 = .ok v ∧
      BlockValue.into_bytes v = [0xff, 0xf6]) :=
  ⟨⟨⟨4096, false, 6⟩, rfl, rfl⟩, ⟨⟨4095, false, 6⟩, rfl, rfl⟩⟩

/-- C9: for requested sizes 1..15 and `num ≤ 1048575` construction
succeeds, the saturating subtraction clamps the stored exponent to 0, and
`size()` returns 16. -/
theorem C9_small_sizes_saturate (num : Nat) (more : Bool) (size : Nat)
    (h1 : 1 ≤ size) (h2 : size ≤ 15) (hnum : num ≤ 1048575) :
    BlockValue.new num more size = .ok ⟨num, more, 0⟩ ∧
    BlockValue.size ⟨num, more, 0⟩ = 16 := by
  have heq := new_eq_of_size_small num more size h1 (by omega)
  rw [MAX_BLOCK_NUMBER_eq] at heq
  have hlog : Nat.log2 size < 4 := (Nat.log2_lt (by omega)).mpr (by norm_num; omega)
  constructor
  · rw [heq, if_neg (by omega), if_neg (by omega)]
    have hz : Nat.log2 size - 4 = 0 := by omega
    rw [hz]
  · rfl

/-- C9 witness at a concrete small size. -/
theorem C9_witness :
    BlockValue.new 5 true 15 = .ok ⟨5, true, 0⟩ ∧
    BlockValue.size ⟨5, true, 0⟩ = 16 :=
  C9_small_sizes_saturate 5 true 15 (by decide) (by decide) (by decide)

/-- C10: every decoded value has `size_exponent ≤ 7` (the decoder masks
with `0x7`), so its `size()` is a power of two in `[16, 2048]` even though
`num ≤ 1048575` is not enforced on this path. -/
theorem C10_decoded_size_invariant (bytes : List Nat) (v : BlockValue)
    (h : BlockValue.try_from bytes = .ok v) :
    v.size_exponent ≤ 7 ∧ BlockValue.size v = 16 <<< v.size_exponent ∧
    16 ≤ BlockValue.size v ∧ BlockValue.size v ≤ 2048 ∧
    ∃ k, BlockValue.size v = 2 ^ k := by
  have hse : v.size_exponent ≤ 7 := by
    unfold BlockValue.try_from at h
    cases hfb : OptionValueU32.from_bytes bytes with
    | error e =>
      rw [hfb] at h
      cases h
    | ok S =>
      rw [hfb] at h
      rw [Except.ok.injEq] at h
      rw [← h]
      exact and_seven_le S
  obtain ⟨ha, hb, hc, hd⟩ := size_of_exponent_le v hse
  exact ⟨hse, ha, hb, hc, hd⟩

/-- C10 witness at a concrete decoded value. -/
theorem C10_witness :
    (⟨268435455, true, 7⟩ : BlockValue).size_exponent ≤ 7 ∧
    BlockValue.size ⟨268435455, true, 7⟩ =
      16 <<< (⟨268435455, true, 7⟩ : BlockValue).size_exponent ∧
    16 ≤ BlockValue.size ⟨268435455, true, 7⟩ ∧
    BlockValue.size ⟨268435455, true, 7⟩ ≤ 2048 ∧
    ∃ k, BlockValue.size ⟨268435455, true, 7⟩ = 2 ^ k :=
  C10_decoded_size_invariant [0xff, 0xff, 0xff, 0xff] ⟨268435455, true, 7⟩ rfl
